import Mathlib

/-!
Verification of the sequence-execution and variable-resolution engine of the
Asana API explorer (the `AsanaAPIExplorer` class).  JavaScript strings are
modelled as `List Char`, JSON values as the `Json` inductive below, and the
relevant methods of the class are embedded as pure Lean functions.
-/

/-- JS strings are modelled as `List Char`; this converts a Lean string literal. -/
def chars (s : String) : List Char := s.data

/-- Decoded JSON values (the dynamic values the explorer traverses).
Numbers are modelled as integers; the claims under study never depend on
fractional values. -/
inductive Json where
  | null
  | boolean (b : Bool)
  | num (n : Int)
  | str (s : List Char)
  | arr (elems : List Json)
  | obj (fields : List (List Char × Json))

instance : Inhabited Json := ⟨Json.null⟩

/-- First-match association lookup, modelling both `Map.get` on
`sequenceResults` and JS object property lookup (keys are unique in the
objects the explorer builds). `none` models JS `undefined`. -/
def lookupAssoc {α : Type} : List (List Char × α) → List Char → Option α
  | [], _ => none
  | (k, v) :: rest, key => if k = key then some v else lookupAssoc rest key

/-- The shared result store `this.sequenceResults`: runtime step id to stored
response data. -/
def Store : Type := List (List Char × Json)

/-- `Map.set`: update the value under a key, or append a new entry. -/
def storeSet : List (List Char × Json) → List Char → Json → List (List Char × Json)
  | [], k, v => [(k, v)]
  | (k', v') :: rest, k, v =>
    if k' = k then (k, v) :: rest else (k', v') :: storeSet rest k v

/-- JS falsiness of a decoded JSON value (`null`, `false`, `0` and the empty
string are falsy; arrays and objects are always truthy). -/
def jsFalsy : Json → Bool
  | Json.null => true
  | Json.boolean b => !b
  | Json.num n => n == 0
  | Json.str s => s.isEmpty
  | Json.arr _ => false
  | Json.obj _ => false

def jsTruthy (v : Json) : Bool := !(jsFalsy v)

/-- JS property access `value[name]` modelled on JSON data: an object-field
lookup, `undefined` (`none`) on anything that is not an object.  Built-in
properties of primitives (such as `length`) are not modelled; the expressions
the explorer resolves only traverse decoded JSON structure. -/
def jsGetField (v : Json) (name : List Char) : Option Json :=
  match v with
  | Json.obj fields => lookupAssoc fields name
  | _ => none

/-- Array index access with a natural-number index: `undefined` (`none`) when
out of bounds or when the value is not an array. -/
def jsIndexNat (v : Json) (i : Nat) : Option Json :=
  match v with
  | Json.arr xs => xs.get? i
  | _ => none

/-- Array index access with a JS number (which may be negative): negative
indices access no element. -/
def jsIndex (v : Json) (i : Int) : Option Json :=
  if 0 ≤ i then jsIndexNat v i.toNat else none

/- ===== JS string primitives used by the embedded methods ===== -/

/-- Worker for `splitOnChar`: `acc` holds the current chunk reversed. -/
def splitOnAux (c : Char) : List Char → List Char → List (List Char)
  | [], acc => [acc.reverse]
  | x :: xs, acc =>
    if x = c then acc.reverse :: splitOnAux c xs []
    else splitOnAux c xs (x :: acc)

/-- `String.prototype.split` with a single-character separator: always returns
at least one (possibly empty) chunk, and empty chunks between adjacent
separators are kept, exactly as in JS. -/
def splitOnChar (c : Char) (s : List Char) : List (List Char) := splitOnAux c s []

/-- `String.prototype.includes` with a single-character needle. -/
def containsChar (l : List Char) (c : Char) : Bool := l.any (fun x => x == c)

/-- `String.prototype.replace(c, '')` with a single-character pattern:
removes the first occurrence only. -/
def removeFirstChar (c : Char) : List Char → List Char
  | [] => []
  | x :: xs => if x = c then xs else x :: removeFirstChar c xs

/-- Is `pat` a prefix of `s`? -/
def isPrefixList : List Char → List Char → Bool
  | [], _ => true
  | _ :: _, [] => false
  | x :: xs, y :: ys => x == y && isPrefixList xs ys

/-- `String.prototype.includes` with a string needle. -/
def containsSub : List Char → List Char → Bool
  | [], pat => isPrefixList pat []
  | c :: rest, pat => isPrefixList pat (c :: rest) || containsSub rest pat

/-- `String.prototype.replace(pat, repl)` with a string pattern: replaces the
first occurrence only; the string is returned unchanged when the pattern does
not occur. -/
def replaceFirstSub (s pat repl : List Char) : List Char :=
  if isPrefixList pat s then repl ++ s.drop pat.length
  else
    match s with
    | [] => []
    | c :: rest => c :: replaceFirstSub rest pat repl

/-- Decimal digit value of a character, `none` for non-digits. -/
def digitVal (c : Char) : Option Nat :=
  if '0' ≤ c ∧ c ≤ '9' then some (c.toNat - 48) else none

/-- The character for a decimal digit. -/
def digitChar (d : Nat) : Char := Char.ofNat (48 + d)

/-- Decimal rendering of a natural number, as JS `String(n)` produces it. -/
def natDigits (n : Nat) : List Char :=
  if n < 10 then [digitChar n]
  else natDigits (n / 10) ++ [digitChar (n % 10)]
termination_by n
decreasing_by exact Nat.div_lt_self (by omega) (by omega)

/-- Accumulate decimal digits until the first non-digit, as `parseInt` does
after its initial digit. -/
def parseDigitsAux : Nat → List Char → Nat
  | acc, [] => acc
  | acc, c :: cs =>
    match digitVal c with
    | some d => parseDigitsAux (10 * acc + d) cs
    | none => acc

/-- Parse a leading run of decimal digits; `none` (JS `NaN`) when the string
does not start with a digit. -/
def parseDigitsStart : List Char → Option Nat
  | [] => none
  | c :: cs =>
    match digitVal c with
    | some d => some (parseDigitsAux d cs)
    | none => none

/-- Model of JS `parseInt` on an already-trimmed string: an optional sign
followed by a digit run; `none` models `NaN`. -/
def jsParseInt (s : List Char) : Option Int :=
  match s with
  | '-' :: rest => (parseDigitsStart rest).map (fun n => -(n : Int))
  | '+' :: rest => (parseDigitsStart rest).map (fun n => (n : Int))
  | _ => (parseDigitsStart s).map (fun n => (n : Int))

/-- Decimal rendering of a JS number modelled as an integer. -/
def intToChars (n : Int) : List Char :=
  if n < 0 then '-' :: natDigits (-n).toNat else natDigits n.toNat

/-- One hexadecimal digit, uppercase as `encodeURIComponent` emits. -/
def hexDigitChar (n : Nat) : Char :=
  if n < 10 then digitChar n else Char.ofNat (55 + n)

/-- Is the character left unescaped by `encodeURIComponent`? -/
def isUnescapedURIChar (c : Char) : Bool :=
  c.isAlphanum || c == '-' || c == '_' || c == '.' || c == '!' || c == '~' ||
    c == '*' || c == Char.ofNat 39 || c == '(' || c == ')'

/-- `encodeURIComponent`, modelled for ASCII characters (the only ones the
explorer's identifiers contain); other characters percent-encode their code
point's low byte here rather than full UTF-8. -/
def encodeURIComponent : List Char → List Char
  | [] => []
  | c :: cs =>
    (if isUnescapedURIChar c then [c]
     else ['%', hexDigitChar (c.toNat / 16 % 16), hexDigitChar (c.toNat % 16)]) ++
      encodeURIComponent cs

/-- Join chunks with commas, as JS `Array.prototype.toString` does. -/
def joinComma : List (List Char) → List Char
  | [] => []
  | [x] => x
  | x :: xs => x ++ ',' :: joinComma xs

/-- JS `String(value)` coercion of a decoded JSON value. -/
def jsToString (v : Json) : List Char :=
  match v with
  | Json.null => chars "null"
  | Json.boolean true => chars "true"
  | Json.boolean false => chars "false"
  | Json.num n => intToChars n
  | Json.str s => s
  | Json.arr xs => joinComma (xs.attach.map (fun x => jsToString x.1))
  | Json.obj _ => chars "[object Object]"
decreasing_by
  have h1 := List.sizeOf_lt_of_mem x.2
  simp only [Json.arr.sizeOf_spec]
  omega

/- ===== Embeddings of the AsanaAPIExplorer methods ===== -/

/-- The optional-chaining array access `value[arrayName]?.[index]` of
`resolveVariable`: a missing or `null` field short-circuits to `undefined`,
a `NaN` index accesses no element, and otherwise the index is applied. -/
def optChainIndex (fv : Option Json) (idx : Option Int) : Option Json :=
  match fv, idx with
  | none, _ => none
  | some Json.null, _ => none
  | some _, none => none
  | some av, some i => jsIndex av i

/-- The per-part null check of `resolveVariable`'s loop: when the new value
is `undefined` or `null` the whole resolution returns `null`, otherwise the
walk continues. -/
def stepOrNull (nextVal : Option Json) (k : Json → Json) : Json :=
  match nextVal with
  | none => Json.null
  | some Json.null => Json.null
  | some v => k v

/-- Walk the dotted path parts of a variable expression, as the `for` loop of
`resolveVariable` does: a part containing both brackets is split into an
array name and a `parseInt`-ed index (`value[arrayName]?.[index]`, where the
optional chaining turns a `null` field into `undefined`); any other part is a
plain property access; as soon as the value becomes `undefined` or `null` the
whole resolution returns `null`. -/
def resolvePathParts (value : Json) : List (List Char) → Json
  | [] => value
  | part :: rest =>
    let nextVal : Option Json :=
      if containsChar part '\x5b' && containsChar part '\x5d' then
        let pieces := splitOnChar '\x5b' part
        let arrayName := pieces.headD []
        let indexStr := (pieces.drop 1).headD []
        let idx := jsParseInt (removeFirstChar '\x5d' indexStr)
        optChainIndex (jsGetField value arrayName) idx
      else jsGetField value part
    stepOrNull nextVal (fun v => resolvePathParts v rest)

/-- `resolveVariable(variablePath)`: split on dots, look the first chunk up in
`sequenceResults`, return `null` when there is no (truthy) stored result, and
otherwise walk the remaining chunks. -/
def resolveVariable (variablePath : List Char) (store : Store) : Json :=
  match splitOnChar '.' variablePath with
  | [] => Json.null
  | itemId :: pathParts =>
    match lookupAssoc store itemId with
    | none => Json.null
    | some result =>
      if jsFalsy result then Json.null else resolvePathParts result pathParts

/-- The capture of the first match of the regex for an inline placeholder
(two opening braces, one or more non-closing-brace characters, two closing
braces) in `resolveVariablePlaceholder`; the search moves forward one
character after a failed match attempt, as a regex scan does. -/
def findPlaceholder : List Char → Option (List Char)
  | [] => none
  | c :: cs =>
    if c = '\x7b' ∧ cs.head? = some '\x7b' then
      let rest := cs.tail
      let cap := rest.takeWhile (fun x => x ≠ '\x7d')
      let rem := rest.dropWhile (fun x => x ≠ '\x7d')
      if cap ≠ [] ∧ rem.take 2 = ['\x7d', '\x7d'] then some cap
      else findPlaceholder cs
    else findPlaceholder cs

/-- `resolveVariablePlaceholder(value)`: when the placeholder regex matches,
return ONLY the resolved value of the first captured expression (the rest of
the string is discarded); otherwise return the string unchanged. -/
def resolveVariablePlaceholder (value : List Char) (store : Store) : Json :=
  match findPlaceholder value with
  | some cap => resolveVariable cap store
  | none => Json.str value

/-- Scanner for `extractPathParameters`: outside a match (`none`) look for an
opening brace; inside a match (`some acc`) accumulate non-closing-brace
characters (reversed in `acc`) and emit the capture at the closing brace,
provided it is non-empty (the regex requires one or more inner characters). -/
def extractPathAux : Option (List Char) → List Char → List (List Char)
  | _, [] => []
  | none, c :: cs =>
    if c = '\x7b' then extractPathAux (some []) cs else extractPathAux none cs
  | some acc, c :: cs =>
    if c = '\x7d' then
      if acc.isEmpty then extractPathAux none cs
      else acc.reverse :: extractPathAux none cs
    else extractPathAux (some (c :: acc)) cs

/-- `extractPathParameters(path)`: the captures of the global regex matching a
brace-delimited parameter name (one or more non-closing-brace characters). -/
def extractPathParameters (path : List Char) : List (List Char) :=
  extractPathAux none path

/-- `this.baseUrl` as set in the constructor. -/
def baseUrl : List Char := chars "https://app.asana.com/api/1.0"

/-- One path parameter of `executeSequenceItem`'s URL build: take the literal
value, replace it by the resolved variable mapping when a (truthy) mapping
entry exists, resolve an inline placeholder when the value is a non-empty
string containing both double-brace delimiters, and, when the final value is
truthy, substitute the URI-encoded coercion for the brace-wrapped parameter
in the URL.  A parameter whose value stays falsy is skipped: nothing fails
and its placeholder remains in the URL. -/
def applyPathParam (pathValues mappings : List (List Char × List Char))
    (store : Store) (url param : List Char) : List Char :=
  let litVal : Json :=
    match lookupAssoc pathValues param with
    | some s => Json.str s
    | none => Json.null
  let v0 : Json :=
    match lookupAssoc mappings param with
    | some expr => if expr.isEmpty then litVal else resolveVariable expr store
    | none => litVal
  let v1 : Json :=
    match v0 with
    | Json.str s =>
      if !s.isEmpty && containsSub s (chars "\x7b\x7b") &&
          containsSub s (chars "\x7d\x7d") then
        resolveVariablePlaceholder s store
      else Json.str s
    | v => v
  if jsTruthy v1 then
    replaceFirstSub url ('\x7b' :: param ++ ['\x7d'])
      (encodeURIComponent (jsToString v1))
  else url

/-- The path-parameter substitution of `executeSequenceItem`: start from
`baseUrl + endpoint.path` and substitute each declared path parameter in
turn. -/
def buildSequencePathUrl (endpointPath : List Char)
    (pathValues : List (List Char × List Char))
    (mappings : List (List Char × List Char)) (store : Store) : List Char :=
  (extractPathParameters endpointPath).foldl (applyPathParam pathValues mappings store)
    (baseUrl ++ endpointPath)

/- ===== ReferenceRewriter: convertVariableToStepReference / -ToVariable ===== -/

/-- Is the character in the word class of the export regex
(`a`-`z`, `A`-`Z`, `0`-`9` or underscore)? -/
def isWordChar (c : Char) : Bool := c.isAlphanum || c == '_'

/-- Does the reference id match the capture group of the export regex: the
four characters of the runtime-id marker followed by one or more word
characters? -/
def isSeqId (id : List Char) : Bool :=
  match id with
  | c1 :: c2 :: c3 :: c4 :: rest =>
    c1 == 's' && c2 == 'e' && c3 == 'q' && c4 == '_' &&
      !rest.isEmpty && rest.all isWordChar
  | _ => false

/-- `apiSequence.findIndex(item => item.id === sequenceId)` over the list of
runtime ids, with `-1` modelled as `none`. -/
def findIdxOfId : List (List Char) → List Char → Option Nat
  | [], _ => none
  | y :: ys, x => if y = x then some 0 else (findIdxOfId ys x).map (· + 1)

/-- The stable positional reference built by the rewriter. -/
def stepName (i : Nat) : List Char := chars "step" ++ natDigits i

/-- The fallback search of `convertVariableToStepReference`: the first match
of the step-number regex anywhere inside the id, returning the digit run. -/
def findStepNum : List Char → Option (List Char)
  | [] => none
  | c :: cs =>
    if c = 's' ∧ cs.take 3 = ['t', 'e', 'p'] ∧
        ((cs.drop 3).takeWhile (fun ch => (digitVal ch).isSome)) ≠ [] then
      some ((cs.drop 3).takeWhile (fun ch => (digitVal ch).isSome))
    else findStepNum cs

/-- The digit run of a stable `step`-prefixed id, when the id consists of the
four marker characters followed by one or more digits, exactly as the import
regex requires. -/
def parseStepIdDigits (id : List Char) : Option (List Char) :=
  match id with
  | c1 :: c2 :: c3 :: c4 :: rest =>
    if c1 = 's' ∧ c2 = 't' ∧ c3 = 'e' ∧ c4 = 'p' ∧ rest ≠ [] ∧
        rest.all (fun c => (digitVal c).isSome) then some rest
    else none
  | _ => none

/-- An expression is modelled as the tokenization the rewriters' regexes see:
literal text chunks interleaved with double-brace placeholder references,
each reference holding the id before the first dot and the dotted path
(starting with the dot) after it. -/
inductive RefPart where
  | lit (s : List Char)
  | ref (id : List Char) (path : List Char)
deriving DecidableEq

/-- One replacement step of `convertVariableToStepReference`: only references
whose id matches the runtime-id pattern are touched; an id found in the
sequence strictly before the current step becomes a stable positional
reference; otherwise the fallback extracts an embedded step number if one
exists, and the reference is left unchanged when it cannot be converted. -/
def toStablePart (ids : List (List Char)) (cur : Nat) : RefPart → RefPart
  | RefPart.lit s => RefPart.lit s
  | RefPart.ref id path =>
    if isSeqId id then
      match findIdxOfId ids id with
      | some i =>
        if i < cur then RefPart.ref (stepName i) path
        else
          match findStepNum id with
          | some ds => RefPart.ref (chars "step" ++ ds) path
          | none => RefPart.ref id path
      | none =>
        match findStepNum id with
        | some ds => RefPart.ref (chars "step" ++ ds) path
        | none => RefPart.ref id path
    else RefPart.ref id path

/-- One replacement step of `convertStepReferenceToVariable`: only stable
`step`-number references are touched, and only when the step number is
strictly less than the current index and within the sequence; they are
replaced by the runtime id of the step at that position. -/
def toRuntimePart (ids : List (List Char)) (cur : Nat) : RefPart → RefPart
  | RefPart.lit s => RefPart.lit s
  | RefPart.ref id path =>
    match parseStepIdDigits id with
    | some ds =>
      match jsParseInt ds with
      | some n =>
        if n < (cur : Int) ∧ n < (ids.length : Int) then
          match ids.get? n.toNat with
          | some rid => RefPart.ref rid path
          | none => RefPart.ref id path
        else RefPart.ref id path
      | none => RefPart.ref id path
    | none => RefPart.ref id path

/-- `convertVariableToStepReference` over a whole tokenized expression. -/
def toStable (ids : List (List Char)) (cur : Nat) (e : List RefPart) : List RefPart :=
  e.map (toStablePart ids cur)

/-- `convertStepReferenceToVariable` over a whole tokenized expression. -/
def toRuntime (ids : List (List Char)) (cur : Nat) (e : List RefPart) : List RefPart :=
  e.map (toRuntimePart ids cur)

/- ===== SequenceExecutor: executeSequenceItem / executeSequence ===== -/

/-- What the external HTTP collaborator does for a given request URL: a 2xx
response with decoded data, a non-2xx response with a status and first error
message, or a network-level failure. -/
inductive HttpOutcome where
  | ok (data : Json)
  | httpError (status : Nat) (msg : List Char)
  | networkError (msg : List Char)

/-- The mutable state of one sequence step that execution touches, together
with the configuration `executeSequenceItem` reads. -/
structure StepState where
  id : List Char
  endpointPath : List Char
  pathValues : List (List Char × List Char)
  variableMappings : List (List Char × List Char)
  executed : Bool
  result : Option Json
  error : Option (List Char)

/-- `executeSequenceItem`: reset the step's prior state, build the URL with
variable substitution, issue the request, and record either the result (also
storing it in `sequenceResults` under the step's runtime id) or the error
message; the step is marked executed in every branch. -/
def executeSequenceItem (http : List Char → HttpOutcome) (store : Store)
    (item : StepState) : StepState × Store :=
  let item0 := { item with executed := false, result := none, error := none }
  let url :=
    buildSequencePathUrl item.endpointPath item.pathValues item.variableMappings store
  match http url with
  | HttpOutcome.ok d =>
    ({ item0 with executed := true, result := some d }, storeSet store item.id d)
  | HttpOutcome.httpError st msg =>
    let e := natDigits st ++ chars ": " ++ msg
    ({ item0 with executed := true, error := some e }, store)
  | HttpOutcome.networkError msg =>
    let e := chars "Network Error: " ++ msg
    ({ item0 with executed := true, error := some e }, store)

/-- `executeSequence`: run the steps strictly in positional order; after each
step, when it recorded an error, stop immediately — the remaining steps are
left untouched (their `executed` flag keeps its prior value). -/
def executeSequence (http : List Char → HttpOutcome) :
    List StepState → Store → List StepState × Store
  | [], store => ([], store)
  | item :: rest, store =>
    let r := executeSequenceItem http store item
    if r.1.error.isSome then (r.1 :: rest, r.2)
    else
      let rr := executeSequence http rest r.2
      (r.1 :: rr.1, rr.2)

/- ===== Import: loadSequenceFromData ===== -/

/-- One entry of the endpoint catalog, as far as import matching reads it. -/
structure EndpointInfo where
  method : List Char
  path : List Char
deriving DecidableEq

/-- A sequence step as import creates it.  The per-item parameter and
variable-mapping conversion is not modelled here (no claim under study
depends on it); `method` and `path` are kept as the raw imported values
(`none` models a JS `undefined` field). -/
structure ImportedStep where
  id : List Char
  method : Option Json
  path : Option Json
  isImported : Bool

/-- The fresh runtime id generated for each created step (the source builds
it from the current time and a random suffix; the model uses one opaque
well-formed runtime id, since no claim under study depends on ids being
distinct). -/
def freshId : List Char := chars "seq_import"

/-- `this.endpoints.find(ep => ep.method === importItem.method && ep.path ===
importItem.path)`: a JS strict equality against a string field can only hold
for a string value. -/
def findMatchingEndpoint (eps : List EndpointInfo) (m p : Option Json) :
    Option EndpointInfo :=
  match m, p with
  | some (Json.str ms), some (Json.str ps) =>
    eps.find? (fun ep => ep.method == ms && ep.path == ps)
  | _, _ => none

/-- Processing of one imported entry inside the per-item `try`: accessing
`.method` on a `null` entry throws (the entry is skipped, `none`); any other
entry is loaded — against a matching catalog endpoint when one exists, and
otherwise as a placeholder step flagged `isImported`. -/
def processImportEntry (eps : List EndpointInfo) (e : Json) : Option ImportedStep :=
  match e with
  | Json.null => none
  | _ =>
    let m := jsGetField e (chars "method")
    let p := jsGetField e (chars "path")
    match findMatchingEndpoint eps m p with
    | some ep =>
      some { id := freshId, method := some (Json.str ep.method), path := some (Json.str ep.path), isImported := false }
    | none =>
      some { id := freshId, method := m, path := p, isImported := true }

/-- What `loadSequenceFromData` accumulates over the entries. -/
structure ImportOutcome where
  steps : List ImportedStep
  loadedCount : Nat
  skippedCount : Nat

/-- The per-entry loop of `loadSequenceFromData`: each entry is processed
inside its own `try`; a throwing entry only increments the skipped count. -/
def loadEntries (eps : List EndpointInfo) : List Json → ImportOutcome
  | [] => { steps := [], loadedCount := 0, skippedCount := 0 }
  | e :: es =>
    let r := loadEntries eps es
    match processImportEntry eps e with
    | some it =>
      { steps := it :: r.steps, loadedCount := r.loadedCount + 1, skippedCount := r.skippedCount }
    | none =>
      { steps := r.steps, loadedCount := r.loadedCount, skippedCount := r.skippedCount + 1 }

/-- `loadSequenceFromData`: reject the file only when it has no sequence
array at all; otherwise load the entries one by one. -/
def loadSequenceFromData (eps : List EndpointInfo) (importData : Json) :
    Except (List Char) ImportOutcome :=
  match jsGetField importData (chars "sequence") with
  | some (Json.arr entries) => Except.ok (loadEntries eps entries)
  | _ => Except.error (chars "Invalid sequence format: missing or invalid sequence array")

/- ===== TransformationEngine: flattenObject ===== -/

/-- JS object assignment `target[key] = v`: update an existing key in place,
append a new one. -/
def objSet (m : List (List Char × Json)) (k : List Char) (v : Json) :
    List (List Char × Json) :=
  storeSet m k v

/-- `Object.assign(target, source)`: assign every field of the source in
order. -/
def objAssign (tgt : List (List Char × Json)) (src : List (List Char × Json)) :
    List (List Char × Json) :=
  src.foldl (fun t kv => objSet t kv.1 kv.2) tgt

/-- `flattenObject(obj, prefix, maxDepth = 3, currentDepth = 0)`: at the depth
limit the whole subtree collapses to an object placeholder keyed by the
prefix without its trailing separator; otherwise each field is emitted under
the prefixed key — nested non-array objects recurse with the key plus an
underscore separator, arrays collapse to a length-annotated placeholder, and
every other value is kept as-is.  Iterating the keys of a non-object yields
nothing. -/
def flattenObject (v : Json) (pre : List Char) (maxDepth : Nat) (currentDepth : Nat) :
    List (List Char × Json) :=
  if _h : currentDepth ≥ maxDepth then
    [(pre.dropLast, Json.str (chars "[Object]"))]
  else
    match v with
    | Json.obj fields =>
      fields.foldl
        (fun acc kv =>
          match kv.2 with
          | Json.obj _ =>
            objAssign acc (flattenObject kv.2 ((pre ++ kv.1) ++ ['_']) maxDepth (currentDepth + 1))
          | Json.arr xs =>
            objSet acc (pre ++ kv.1)
              (Json.str (chars "[Array(" ++ natDigits xs.length ++ chars ")]"))
          | other => objSet acc (pre ++ kv.1) other)
        []
    | _ => []
termination_by maxDepth - currentDepth
decreasing_by omega

/- ===== IterationEngine (modelled from the spec) ===== -/

/-- Modelled from the spec: the per-iteration HTTP call result used by the
IterationEngine, whose implementation is not present in the source snapshot
(the testing guide documents the feature and its expected results); a call
either succeeds with decoded data or fails with a message. -/
inductive IterCallResult where
  | success (data : Json)
  | failure (msg : List Char)

def IterCallResult.isSuccess : IterCallResult → Bool
  | IterCallResult.success _ => true
  | IterCallResult.failure _ => false

/-- Modelled from the spec: the aggregate result of an iterated step. -/
structure IterationSummary where
  totalIterations : Nat
  succeeded : Nat
  failed : Nat
  unifiedItems : List Json

/-- Modelled from the spec: unification wraps a single-object call result as
a one-element sequence before concatenating, and concatenates array results
as they are. -/
def itemsOf : Json → List Json
  | Json.arr xs => xs
  | v => [v]

/-- Modelled from the spec: the per-call contribution to the unified items —
the items of a succeeded call, nothing for a failed one. -/
def resultItems : IterCallResult → List Json
  | IterCallResult.success d => itemsOf d
  | IterCallResult.failure _ => []

/-- Modelled from the spec: the IterationEngine run, whose implementation is
missing from the source snapshot.  The resolved source must be a sequence or
the whole step fails; each element is called in order, an individual failure
does not halt the loop, and the summary counts iterations, successes and
failures and concatenates the succeeded calls' data in iteration order. -/
def runIteration (source : Json) (call : Json → IterCallResult) :
    Except (List Char) IterationSummary :=
  match source with
  | Json.arr elems =>
    let results := elems.map call
    Except.ok
      { totalIterations := elems.length,
        succeeded := (results.filter (fun r => r.isSuccess)).length,
        failed := (results.filter (fun r => !r.isSuccess)).length,
        unifiedItems := results.flatMap resultItems }
  | _ => Except.error (chars "IterationSourceNotArray")

/- ===== Specification-side definitions for the resolver claims ===== -/

/-- One segment of a variable expression, as the claim's grammar describes
it: a bare field name, or a field name with a non-negative integer index. -/
inductive Seg where
  | field (name : List Char)
  | index (name : List Char) (i : Nat)

/-- A segment is well formed when its field name contains none of the
characters the expression syntax reserves. -/
def validSeg : Seg → Prop
  | Seg.field n => '.' ∉ n ∧ '\x5b' ∉ n ∧ '\x5d' ∉ n
  | Seg.index n _ => '.' ∉ n ∧ '\x5b' ∉ n ∧ '\x5d' ∉ n

/-- The concrete text of a segment. -/
def renderSeg : Seg → List Char
  | Seg.field n => n
  | Seg.index n i => n ++ '\x5b' :: (natDigits i ++ ['\x5d'])

/-- The concrete text of a variable expression: the step id followed by a
dot-prefixed rendering of each segment. -/
def renderExpr (stepId : List Char) (segs : List Seg) : List Char :=
  stepId ++ segs.flatMap (fun s => '.' :: renderSeg s)

/-- A primitive access of the hand walk: one object-field access or one
array-index access. -/
inductive JAccess where
  | fieldA (name : List Char)
  | indexA (i : Nat)

/-- One primitive access applied to a value; `none` when the value is absent
(no such field, index out of range, or the value is not of the right shape). -/
def access1 (v : Json) : JAccess → Option Json
  | JAccess.fieldA n => jsGetField v n
  | JAccess.indexA i => jsIndexNat v i

/-- One step of the hand walk: an absent value yields `null`, a present one
continues. -/
def walkStep (o : Option Json) (k : Json → Json) : Json :=
  match o with
  | none => Json.null
  | some v' => k v'

/-- The hand walk of the claim: perform each access in turn; as soon as a
value is absent the walk yields `null` (an access on `null` is absent, so an
intermediate `null` also yields `null`). -/
def walkAccess (v : Json) : List JAccess → Json
  | [] => v
  | a :: rest => walkStep (access1 v a) (fun v' => walkAccess v' rest)

/-- The primitive accesses a segment stands for: a field access, followed by
an index access for an indexed segment. -/
def Seg.accesses : Seg → List JAccess
  | Seg.field n => [JAccess.fieldA n]
  | Seg.index n i => [JAccess.fieldA n, JAccess.indexA i]

/-- The value a hand-walked sequence of object-field and array-index accesses
on `entry` returns, with absent/null propagation. -/
def walkSpec (entry : Json) (segs : List Seg) : Json :=
  walkAccess entry (segs.flatMap Seg.accesses)

/- ===== Basic lemmas about the string primitives ===== -/

theorem splitOnAux_not_mem (c : Char) (s : List Char) (h : c ∉ s) :
    ∀ acc, splitOnAux c s acc = [acc.reverse ++ s] := by
  induction s with
  | nil => intro acc; simp [splitOnAux]
  | cons x xs ih =>
    intro acc
    have hx : ¬ x = c := fun he => h (he ▸ List.mem_cons_self x xs)
    simp only [splitOnAux, if_neg hx]
    rw [ih (fun hm => h (List.mem_cons_of_mem _ hm))]
    simp

theorem splitOnAux_sep (c : Char) (s t : List Char) (h : c ∉ s) :
    ∀ acc, splitOnAux c (s ++ c :: t) acc = (acc.reverse ++ s) :: splitOnAux c t [] := by
  induction s with
  | nil => intro acc; simp [splitOnAux]
  | cons x xs ih =>
    intro acc
    have hx : ¬ x = c := fun he => h (he ▸ List.mem_cons_self x xs)
    simp only [List.cons_append, splitOnAux, if_neg hx]
    simp only [List.append_eq]
    rw [ih (fun hm => h (List.mem_cons_of_mem _ hm))]
    simp

theorem containsChar_false_of_not_mem {l : List Char} {c : Char} (h : c ∉ l) :
    containsChar l c = false := by
  simp only [containsChar, List.any_eq_false]
  intro x hx
  simp only [beq_iff_eq]
  exact fun he => h (he ▸ hx)

theorem containsChar_true_of_mem {l : List Char} {c : Char} (h : c ∈ l) :
    containsChar l c = true := by
  simp only [containsChar, List.any_eq_true]
  exact ⟨c, h, by simp⟩

theorem removeFirstChar_append_last (c : Char) (l : List Char) (h : c ∉ l) :
    removeFirstChar c (l ++ [c]) = l := by
  induction l with
  | nil => simp [removeFirstChar]
  | cons x xs ih =>
    have hx : ¬ x = c := fun he => h (he ▸ List.mem_cons_self x xs)
    simp only [List.cons_append, removeFirstChar, if_neg hx]
    simp only [List.append_eq]
    rw [ih (fun hm => h (List.mem_cons_of_mem _ hm))]

/- ===== Lemmas about decimal digits ===== -/

theorem digitVal_digitChar (d : Nat) (h : d < 10) : digitVal (digitChar d) = some d := by
  interval_cases d <;> decide

theorem natDigits_ne_nil (n : Nat) : natDigits n ≠ [] := by
  rw [natDigits]
  split <;> simp

theorem natDigits_all_digit (n : Nat) : ∀ c ∈ natDigits n, (digitVal c).isSome := by
  induction n using Nat.strong_induction_on with
  | _ n ih =>
    rw [natDigits]
    split
    · intro c hc
      simp only [List.mem_singleton] at hc
      subst hc
      rw [digitVal_digitChar n (by omega)]
      simp
    · intro c hc
      rw [List.mem_append] at hc
      rcases hc with hc | hc
      · exact ih (n / 10) (Nat.div_lt_self (by omega) (by omega)) c hc
      · simp only [List.mem_singleton] at hc
        subst hc
        rw [digitVal_digitChar _ (Nat.mod_lt _ (by omega))]
        simp

theorem mem_natDigits_ne {n : Nat} {c : Char} (hc : c ∈ natDigits n) (x : Char)
    (hx : digitVal x = none) : c ≠ x := by
  intro he
  subst he
  have h1 := natDigits_all_digit n c hc
  rw [hx] at h1
  simp at h1

theorem parseDigitsAux_append (l₁ l₂ : List Char)
    (hd : ∀ c ∈ l₁, (digitVal c).isSome) :
    ∀ acc, parseDigitsAux acc (l₁ ++ l₂) = parseDigitsAux (parseDigitsAux acc l₁) l₂ := by
  induction l₁ with
  | nil => intro acc; simp [parseDigitsAux]
  | cons c cs ih =>
    intro acc
    obtain ⟨d, hdv⟩ := Option.isSome_iff_exists.mp (hd c (List.mem_cons_self c cs))
    simp only [List.cons_append, parseDigitsAux, hdv]
    exact ih (fun c' h => hd c' (List.mem_cons_of_mem _ h)) _

theorem parseDigitsAux_natDigits (n : Nat) :
    ∀ acc, parseDigitsAux acc (natDigits n) = acc * 10 ^ (natDigits n).length + n := by
  induction n using Nat.strong_induction_on with
  | _ n ih =>
    intro acc
    rw [natDigits]
    split
    · rename_i h
      simp only [parseDigitsAux, digitVal_digitChar n h, List.length_singleton]
      omega
    · rename_i h
      rw [parseDigitsAux_append _ _ (natDigits_all_digit (n / 10))]
      rw [ih (n / 10) (Nat.div_lt_self (by omega) (by omega))]
      simp only [parseDigitsAux, digitVal_digitChar (n % 10) (Nat.mod_lt _ (by omega))]
      simp only [List.length_append, List.length_singleton]
      have hmod : n % 10 + 10 * (n / 10) = n := Nat.mod_add_div n 10
      ring_nf
      omega

theorem parseDigitsStart_natDigits (n : Nat) : parseDigitsStart (natDigits n) = some n := by
  cases hnd : natDigits n with
  | nil => exact absurd hnd (natDigits_ne_nil n)
  | cons c cs =>
    have hmem : c ∈ natDigits n := by rw [hnd]; exact List.mem_cons_self c cs
    obtain ⟨d, hdv⟩ := Option.isSome_iff_exists.mp (natDigits_all_digit n c hmem)
    have h0 := parseDigitsAux_natDigits n 0
    rw [hnd] at h0
    simp only [parseDigitsAux, hdv, Nat.mul_zero, Nat.zero_mul, Nat.zero_add] at h0
    simp only [parseDigitsStart, hdv]
    rw [h0]

theorem jsParseInt_head_not_sign (c : Char) (cs : List Char) (h1 : c ≠ '-')
    (h2 : c ≠ '+') :
    jsParseInt (c :: cs) = (parseDigitsStart (c :: cs)).map (fun k => (k : Int)) := by
  simp only [jsParseInt]
  split
  · rename_i heq
    injection heq with ha _
    exact absurd ha h1
  · rename_i heq
    injection heq with ha _
    exact absurd ha h2
  · rfl

theorem jsParseInt_natDigits (n : Nat) : jsParseInt (natDigits n) = some ((n : Nat) : Int) := by
  cases hnd : natDigits n with
  | nil => exact absurd hnd (natDigits_ne_nil n)
  | cons c cs =>
    have hmem : c ∈ natDigits n := by rw [hnd]; exact List.mem_cons_self c cs
    have hc : (digitVal c).isSome := natDigits_all_digit n c hmem
    have hcm : c ≠ '-' := by
      intro he
      subst he
      rw [show digitVal '-' = none from rfl] at hc
      simp at hc
    have hcp : c ≠ '+' := by
      intro he
      subst he
      rw [show digitVal '+' = none from rfl] at hc
      simp at hc
    rw [jsParseInt_head_not_sign c cs hcm hcp, ← hnd, parseDigitsStart_natDigits]
    rfl

/- ===== Lemmas for the resolver claims ===== -/

theorem walkAccess_null : ∀ l, walkAccess Json.null l = Json.null := by
  intro l
  cases l with
  | nil => rfl
  | cons a rest => cases a <;> rfl

theorem jsGetField_none_of_falsy {v : Json} (h : jsFalsy v = true) (n : List Char) :
    jsGetField v n = none := by
  cases v <;> simp_all [jsFalsy, jsGetField]

theorem jsIndex_ofNat (v : Json) (i : Nat) : jsIndex v ((i : Nat) : Int) = jsIndexNat v i := by
  simp [jsIndex]

theorem renderSeg_no_dot {s : Seg} (h : validSeg s) : '.' ∉ renderSeg s := by
  cases s with
  | field n => exact h.1
  | index n i =>
    obtain ⟨h1, _, _⟩ := h
    simp only [renderSeg]
    intro hm
    rw [List.mem_append] at hm
    rcases hm with hm | hm
    · exact h1 hm
    · rcases List.mem_cons.mp hm with he | hm2
      · exact absurd he (by decide)
      · rw [List.mem_append] at hm2
        rcases hm2 with hm2 | hm2
        · exact (mem_natDigits_ne hm2 '.' (by decide)) rfl
        · rw [List.mem_singleton] at hm2
          exact absurd hm2 (by decide)

theorem splitOnChar_render (segs : List Seg) :
    ∀ front : List Char, '.' ∉ front → (∀ s ∈ segs, validSeg s) →
    splitOnChar '.' (front ++ segs.flatMap (fun s => '.' :: renderSeg s)) =
      front :: segs.map renderSeg := by
  induction segs with
  | nil =>
    intro front hf _
    simp only [List.flatMap_nil, List.append_nil, List.map_nil]
    unfold splitOnChar
    rw [splitOnAux_not_mem '.' front hf []]
    simp
  | cons s ss ih =>
    intro front hf hv
    have hs := hv s (List.mem_cons_self s ss)
    simp only [List.flatMap_cons]
    rw [show front ++ (('.' :: renderSeg s) ++ ss.flatMap (fun t => '.' :: renderSeg t)) =
        front ++ '.' :: (renderSeg s ++ ss.flatMap (fun t => '.' :: renderSeg t)) from by simp]
    unfold splitOnChar
    rw [splitOnAux_sep '.' front _ hf []]
    have hrec := ih (renderSeg s) (renderSeg_no_dot hs)
      (fun t ht => hv t (List.mem_cons_of_mem _ ht))
    unfold splitOnChar at hrec
    rw [hrec]
    simp

theorem not_mem_bracketTail (i : Nat) : '\x5b' ∉ natDigits i ++ ['\x5d'] := by
  intro hm
  rw [List.mem_append] at hm
  rcases hm with hm | hm
  · exact (mem_natDigits_ne hm '\x5b' (by decide)) rfl
  · rw [List.mem_singleton] at hm
    exact absurd hm (by decide)

theorem splitOnChar_bracketSeg (n : List Char) (i : Nat) (hn : '\x5b' ∉ n) :
    splitOnChar '\x5b' (n ++ '\x5b' :: (natDigits i ++ ['\x5d'])) =
      [n, natDigits i ++ ['\x5d']] := by
  unfold splitOnChar
  rw [splitOnAux_sep '\x5b' n _ hn []]
  rw [splitOnAux_not_mem '\x5b' _ (not_mem_bracketTail i) []]
  simp

theorem removeFirstChar_bracketTail (i : Nat) :
    removeFirstChar '\x5d' (natDigits i ++ ['\x5d']) = natDigits i := by
  apply removeFirstChar_append_last
  intro hm
  exact (mem_natDigits_ne hm '\x5d' (by decide)) rfl

theorem resolvePathParts_render (segs : List Seg) :
    ∀ v : Json, (∀ s ∈ segs, validSeg s) →
    resolvePathParts v (segs.map renderSeg) = walkAccess v (segs.flatMap Seg.accesses) := by
  induction segs with
  | nil => intro v _; rfl
  | cons s ss ih =>
    intro v hv
    have hs := hv s (List.mem_cons_self s ss)
    have hss : ∀ t ∈ ss, validSeg t := fun t ht => hv t (List.mem_cons_of_mem s ht)
    cases s with
    | field n =>
      obtain ⟨h1, h2, h3⟩ := hs
      simp only [List.map_cons, List.flatMap_cons, Seg.accesses, renderSeg,
        List.singleton_append]
      simp only [resolvePathParts, containsChar_false_of_not_mem h2, Bool.false_and,
        Bool.false_eq_true, if_false, walkAccess, access1]
      cases hf : jsGetField v n with
      | none => rfl
      | some v' =>
        cases v' with
        | null => simp [stepOrNull, walkStep, walkAccess_null]
        | boolean b => exact ih _ hss
        | num m => exact ih _ hss
        | str s2 => exact ih _ hss
        | arr xs => exact ih _ hss
        | obj fs => exact ih _ hss
    | index n i =>
      obtain ⟨h1, h2, h3⟩ := hs
      have hbl : containsChar (renderSeg (Seg.index n i)) '\x5b' = true := by
        apply containsChar_true_of_mem
        simp [renderSeg]
      have hbr : containsChar (renderSeg (Seg.index n i)) '\x5d' = true := by
        apply containsChar_true_of_mem
        simp [renderSeg]
      simp only [List.map_cons, List.flatMap_cons, Seg.accesses]
      simp only [renderSeg] at hbl hbr
      simp only [resolvePathParts, renderSeg, hbl, hbr, Bool.and_self, if_true]
      rw [splitOnChar_bracketSeg n i h2]
      simp only [List.headD_cons, List.drop_succ_cons, List.drop_zero]
      rw [removeFirstChar_bracketTail i, jsParseInt_natDigits i]
      simp only [List.cons_append, walkAccess, access1]
      cases hf : jsGetField v n with
      | none => rfl
      | some v' =>
        have hwalk : ∀ av : Json,
            stepOrNull (jsIndexNat av i) (fun w => resolvePathParts w (List.map renderSeg ss)) =
            walkStep (jsIndexNat av i) (fun w => walkAccess w (ss.flatMap Seg.accesses)) := by
          intro av
          cases hx : jsIndexNat av i with
          | none => rfl
          | some v2 =>
            cases v2 with
            | null => simp [stepOrNull, walkStep, walkAccess_null]
            | boolean b2 => exact ih _ hss
            | num m2 => exact ih _ hss
            | str s2 => exact ih _ hss
            | arr xs2 => exact ih _ hss
            | obj fs2 => exact ih _ hss
        cases v' with
        | null => rfl
        | boolean b =>
          show stepOrNull (optChainIndex (some (Json.boolean b)) (some ((i : Nat) : Int))) _ = _
          rw [show optChainIndex (some (Json.boolean b)) (some ((i : Nat) : Int)) =
            jsIndexNat (Json.boolean b) i from by rw [← jsIndex_ofNat]; rfl]
          exact hwalk _
        | num m =>
          show stepOrNull (optChainIndex (some (Json.num m)) (some ((i : Nat) : Int))) _ = _
          rw [show optChainIndex (some (Json.num m)) (some ((i : Nat) : Int)) =
            jsIndexNat (Json.num m) i from by rw [← jsIndex_ofNat]; rfl]
          exact hwalk _
        | str s1 =>
          show stepOrNull (optChainIndex (some (Json.str s1)) (some ((i : Nat) : Int))) _ = _
          rw [show optChainIndex (some (Json.str s1)) (some ((i : Nat) : Int)) =
            jsIndexNat (Json.str s1) i from by rw [← jsIndex_ofNat]; rfl]
          exact hwalk _
        | arr xs =>
          show stepOrNull (optChainIndex (some (Json.arr xs)) (some ((i : Nat) : Int))) _ = _
          rw [show optChainIndex (some (Json.arr xs)) (some ((i : Nat) : Int)) =
            jsIndexNat (Json.arr xs) i from by rw [← jsIndex_ofNat]; rfl]
          exact hwalk _
        | obj fs =>
          show stepOrNull (optChainIndex (some (Json.obj fs)) (some ((i : Nat) : Int))) _ = _
          rw [show optChainIndex (some (Json.obj fs)) (some ((i : Nat) : Int)) =
            jsIndexNat (Json.obj fs) i from by rw [← jsIndex_ofNat]; rfl]
          exact hwalk _

theorem resolveVariable_render (stepId : List Char) (segs : List Seg) (store : Store)
    (hid : '.' ∉ stepId) (hs : ∀ s ∈ segs, validSeg s) (hne : segs ≠ []) :
    resolveVariable (renderExpr stepId segs) store =
      (match lookupAssoc store stepId with
       | none => Json.null
       | some entry => walkSpec entry segs) := by
  unfold resolveVariable renderExpr
  rw [splitOnChar_render segs stepId hid hs]
  show (match lookupAssoc store stepId with
        | none => Json.null
        | some result =>
          if jsFalsy result = true then Json.null
          else resolvePathParts result (segs.map renderSeg)) =
      (match lookupAssoc store stepId with
       | none => Json.null
       | some entry => walkSpec entry segs)
  cases hlk : lookupAssoc store stepId with
  | none => rfl
  | some entry =>
    show (if jsFalsy entry = true then Json.null
          else resolvePathParts entry (segs.map renderSeg)) = walkSpec entry segs
    by_cases hfal : jsFalsy entry = true
    · rw [if_pos hfal]
      cases segs with
      | nil => exact absurd rfl hne
      | cons s ss =>
        unfold walkSpec
        cases s <;>
          simp [Seg.accesses, walkAccess, access1, jsGetField_none_of_falsy hfal, walkStep]
    · rw [if_neg hfal, resolvePathParts_render segs entry hs]
      rfl

instance : DecidablePred validSeg := fun s => by
  cases s <;> simp only [validSeg] <;> infer_instance

theorem stepName_no_dot (n : Nat) : '.' ∉ stepName n := by
  intro hm
  unfold stepName at hm
  rw [List.mem_append] at hm
  rcases hm with hm | hm
  · revert hm
    decide
  · exact (mem_natDigits_ne hm '.' (by decide)) rfl

/-- Claim C1: for every valid variable expression, made of a step id and a
non-empty list of well-formed segments, and every store containing an entry
for the step id, `resolveVariable` returns exactly the value the hand-walked
sequence of object-field and array-index accesses on that entry returns, and
that hand walk yields `null` (not an error) whenever an intermediate value is
absent or `null`. -/
theorem claim1_resolveVariable_handwalk (stepId : List Char) (segs : List Seg)
    (store : Store) (entry : Json) (hid : '.' ∉ stepId)
    (hs : ∀ s ∈ segs, validSeg s) (hne : segs ≠ [])
    (hlk : lookupAssoc store stepId = some entry) :
    resolveVariable (renderExpr stepId segs) store = walkSpec entry segs := by
  rw [resolveVariable_render stepId segs store hid hs hne, hlk]

/-- Witness for C1 at a concrete expression, store and entry. -/
theorem claim1_witness :
    resolveVariable (renderExpr (chars "seq_1") [Seg.field (chars "data")])
        [(chars "seq_1", Json.obj [(chars "data", Json.num 7)])] =
      walkSpec (Json.obj [(chars "data", Json.num 7)]) [Seg.field (chars "data")] ∧
    walkSpec (Json.obj [(chars "data", Json.num 7)]) [Seg.field (chars "data")] =
      Json.num 7 := by
  constructor
  · exact claim1_resolveVariable_handwalk (chars "seq_1") [Seg.field (chars "data")]
      _ _ (by decide) (by decide) (List.cons_ne_nil _ _) rfl
  · rfl

/-- Claim C4 (amended): resolution looks the step reference up only as a
literal store key, so an expression in stable positional form resolves to
`null` whenever no store entry is literally keyed by that stable name, while
the equivalent runtime-id expression resolves against the stored entry; the
import-time rewrite pass is what makes stable references resolvable. -/
theorem claim4_amended (n : Nat) (segs : List Seg) (store : Store) (rid : List Char)
    (entry : Json) (hs : ∀ s ∈ segs, validSeg s) (hne : segs ≠ [])
    (hstep : lookupAssoc store (stepName n) = none)
    (hrd : '.' ∉ rid) (hrid : lookupAssoc store rid = some entry) :
    resolveVariable (renderExpr (stepName n) segs) store = Json.null ∧
    resolveVariable (renderExpr rid segs) store = walkSpec entry segs := by
  constructor
  · rw [resolveVariable_render _ segs store (stepName_no_dot n) hs hne, hstep]
  · rw [resolveVariable_render rid segs store hrd hs hne, hrid]

/-- Counterexample to C4 as stated: with one executed step whose runtime id
is the sole store key and whose positional index is 0, the stable expression
resolves to `null` while the equivalent runtime-id expression resolves to the
stored value — the two addressing forms are NOT both accepted. -/
theorem claim4_counterexample :
    resolveVariable (chars "step0.data")
        [(chars "seq_1", Json.obj [(chars "data", Json.str (chars "x"))])] = Json.null ∧
    resolveVariable (chars "seq_1.data")
        [(chars "seq_1", Json.obj [(chars "data", Json.str (chars "x"))])] =
      Json.str (chars "x") ∧
    Json.null ≠ Json.str (chars "x") :=
  ⟨rfl, rfl, fun h => Json.noConfusion h⟩

/-- Witness for the amended C4 at concrete inputs. -/
theorem claim4_witness :
    resolveVariable (renderExpr (stepName 0) [Seg.field (chars "data")])
        [(chars "seq_1", Json.obj [(chars "data", Json.num 7)])] = Json.null ∧
    resolveVariable (renderExpr (chars "seq_1") [Seg.field (chars "data")])
        [(chars "seq_1", Json.obj [(chars "data", Json.num 7)])] =
      walkSpec (Json.obj [(chars "data", Json.num 7)]) [Seg.field (chars "data")] :=
  claim4_amended 0 [Seg.field (chars "data")]
    [(chars "seq_1", Json.obj [(chars "data", Json.num 7)])] (chars "seq_1")
    (Json.obj [(chars "data", Json.num 7)])
    (by decide) (List.cons_ne_nil _ _) rfl (by decide) rfl

/-- Claim C7 (amended): `resolveVariable` returns plain `null` both when the
referenced step id maps to no store entry at all and when a value along the
path is absent — the two outcomes are the same value, and no distinct
`UnknownStepReference` error exists for callers to observe. -/
theorem claim7_amended (store : Store) (id1 id2 : List Char) (segs1 segs2 : List Seg)
    (entry : Json)
    (h1d : '.' ∉ id1) (h1s : ∀ s ∈ segs1, validSeg s) (h1n : segs1 ≠ [])
    (h2d : '.' ∉ id2) (h2s : ∀ s ∈ segs2, validSeg s) (h2n : segs2 ≠ [])
    (hu : lookupAssoc store id1 = none)
    (hk : lookupAssoc store id2 = some entry)
    (hw : walkSpec entry segs2 = Json.null) :
    resolveVariable (renderExpr id1 segs1) store = Json.null ∧
    resolveVariable (renderExpr id2 segs2) store = Json.null := by
  constructor
  · rw [resolveVariable_render id1 segs1 store h1d h1s h1n, hu]
  · rw [resolveVariable_render id2 segs2 store h2d h2s h2n, hk]
    exact hw

/-- Counterexample to C7 as stated: an unknown step id produces the plain
value `null`, exactly the same outcome as a known step id with an absent
path value — there is no distinct error. -/
theorem claim7_counterexample :
    resolveVariable (chars "nope.data")
        [(chars "seq_1", Json.obj [(chars "data", Json.str (chars "x"))])] = Json.null ∧
    resolveVariable (chars "seq_1.missing")
        [(chars "seq_1", Json.obj [(chars "data", Json.str (chars "x"))])] = Json.null :=
  ⟨rfl, rfl⟩

/-- Witness for the amended C7 at concrete inputs. -/
theorem claim7_witness :
    resolveVariable (renderExpr (chars "nope") [Seg.field (chars "data")])
        [(chars "seq_1", Json.obj [(chars "data", Json.num 7)])] = Json.null ∧
    resolveVariable (renderExpr (chars "seq_1") [Seg.field (chars "missing")])
        [(chars "seq_1", Json.obj [(chars "data", Json.num 7)])] = Json.null :=
  claim7_amended [(chars "seq_1", Json.obj [(chars "data", Json.num 7)])]
    (chars "nope") (chars "seq_1") [Seg.field (chars "data")]
    [Seg.field (chars "missing")] (Json.obj [(chars "data", Json.num 7)])
    (by decide) (by decide) (List.cons_ne_nil _ _)
    (by decide) (by decide) (List.cons_ne_nil _ _)
    rfl rfl rfl

/- ===== Lemmas for the reference-rewriter claim ===== -/

theorem findIdxOfId_get :
    ∀ (ids : List (List Char)) (x : List Char) (i : Nat),
    findIdxOfId ids x = some i → ids.get? i = some x := by
  intro ids
  induction ids with
  | nil => intro x i h; simp [findIdxOfId] at h
  | cons y ys ih =>
    intro x i h
    simp only [findIdxOfId] at h
    by_cases hy : y = x
    · rw [if_pos hy] at h
      injection h with h
      subst h
      simp [hy]
    · rw [if_neg hy] at h
      cases hf : findIdxOfId ys x with
      | none => rw [hf] at h; simp at h
      | some j =>
        rw [hf] at h
        simp only [Option.map_some'] at h
        injection h with h
        subst h
        simpa using ih x j hf

theorem findIdxOfId_lt {ids : List (List Char)} {x : List Char} {i : Nat}
    (h : findIdxOfId ids x = some i) : i < ids.length :=
  List.get?_eq_some.mp (findIdxOfId_get ids x i h) |>.1

theorem parseStepIdDigits_stepName (i : Nat) :
    parseStepIdDigits (stepName i) = some (natDigits i) := by
  show parseStepIdDigits ('s' :: 't' :: 'e' :: 'p' :: natDigits i) = some (natDigits i)
  simp only [parseStepIdDigits]
  rw [if_pos]
  exact ⟨trivial, trivial, trivial, trivial, natDigits_ne_nil i,
    List.all_eq_true.mpr (fun c hc => natDigits_all_digit i c hc)⟩

/-- Claim C2: for every tokenized expression whose references are all
backward — each referenced runtime id occurs in the sequence at a position
strictly below the owning step's positional index — rewriting to stable form
and back to runtime form over the same sequence returns the original
expression, hence an expression referencing the same logical steps. -/
theorem claim2_roundtrip (ids : List (List Char)) (cur : Nat) (e : List RefPart)
    (h : ∀ id path, RefPart.ref id path ∈ e →
      isSeqId id = true ∧ ∃ i, findIdxOfId ids id = some i ∧ i < cur) :
    toRuntime ids cur (toStable ids cur e) = e := by
  unfold toRuntime toStable
  rw [List.map_map]
  conv_rhs => rw [← List.map_id e]
  apply List.map_congr_left
  intro p hp
  cases p with
  | lit s => rfl
  | ref id path =>
    obtain ⟨hseq, i, hfind, hlt⟩ := h id path hp
    simp only [Function.comp_apply, id_eq, toStablePart, hseq, if_true, hfind]
    rw [if_pos hlt]
    simp only [toRuntimePart, parseStepIdDigits_stepName, jsParseInt_natDigits]
    have hget := findIdxOfId_get ids id i hfind
    have hlen : i < ids.length := findIdxOfId_lt hfind
    rw [if_pos ⟨Int.ofNat_lt.mpr hlt, Int.ofNat_lt.mpr hlen⟩]
    simp only [Int.toNat_ofNat]
    rw [hget]

/-- Witness for C2: a two-step sequence, with the second step's expression
referencing the first step's runtime id, round-trips unchanged. -/
theorem claim2_witness :
    toRuntime [chars "seq_abc1", chars "seq_def2"] 1
        (toStable [chars "seq_abc1", chars "seq_def2"] 1
          [RefPart.lit (chars "limit=5&x="),
           RefPart.ref (chars "seq_abc1") (chars ".data[0].gid")]) =
      [RefPart.lit (chars "limit=5&x="),
       RefPart.ref (chars "seq_abc1") (chars ".data[0].gid")] := by
  apply claim2_roundtrip
  intro id path hmem
  simp only [List.mem_cons, List.not_mem_nil, or_false] at hmem
  rcases hmem with hmem | hmem
  · exact absurd hmem (by simp)
  · rw [RefPart.ref.injEq] at hmem
    obtain ⟨h1, _⟩ := hmem
    subst h1
    exact ⟨by decide, 0, rfl, by omega⟩

/- ===== Lemmas for the executor claim ===== -/

theorem executeSequenceItem_executed (http : List Char → HttpOutcome) (store : Store)
    (item : StepState) : (executeSequenceItem http store item).1.executed = true := by
  unfold executeSequenceItem
  dsimp only
  split <;> rfl

/-- Claim C3: `executeSequence` runs the steps strictly in positional order
and halts immediately after a failing step: over `[A, B, C]` with A
succeeding and B failing, A and B are executed (in that order, B against the
store A produced) and C is returned untouched, its `executed` flag still
false. -/
theorem claim3_runAll_failfast (http : List Char → HttpOutcome) (store : Store)
    (A B C : StepState)
    (hA : (executeSequenceItem http store A).1.error = none)
    (hB : ((executeSequenceItem http (executeSequenceItem http store A).2 B).1.error).isSome
      = true)
    (hC : C.executed = false) :
    (executeSequence http [A, B, C] store).1 =
      [(executeSequenceItem http store A).1,
       (executeSequenceItem http (executeSequenceItem http store A).2 B).1, C] ∧
    (executeSequenceItem http store A).1.executed = true ∧
    (executeSequenceItem http (executeSequenceItem http store A).2 B).1.executed = true ∧
    (executeSequence http [A, B, C] store).1.get? 2 = some C ∧
    C.executed = false := by
  have hrun : (executeSequence http [A, B, C] store).1 =
      [(executeSequenceItem http store A).1,
       (executeSequenceItem http (executeSequenceItem http store A).2 B).1, C] := by
    simp only [executeSequence, hA, Option.isSome_none, Bool.false_eq_true, if_false, hB,
      if_true]
  refine ⟨hrun, executeSequenceItem_executed http store A,
    executeSequenceItem_executed http _ B, ?_, hC⟩
  rw [hrun]
  rfl

/-- Witness for C3: a concrete three-step sequence where the middle step's
URL gets a network failure and the others succeed. -/
theorem claim3_witness :
    ((executeSequence
        (fun u => if u = baseUrl ++ chars "/b" then
            HttpOutcome.networkError (chars "boom")
          else HttpOutcome.ok (Json.num 1))
        [⟨chars "seq_a", chars "/a", [], [], false, none, none⟩,
         ⟨chars "seq_b", chars "/b", [], [], false, none, none⟩,
         ⟨chars "seq_c", chars "/c", [], [], false, none, none⟩] []).1.get? 2 =
      some ⟨chars "seq_c", chars "/c", [], [], false, none, none⟩ ∧
    (⟨chars "seq_c", chars "/c", [], [], false, none, none⟩ : StepState).executed
      = false) := by
  have h := claim3_runAll_failfast
    (fun u => if u = baseUrl ++ chars "/b" then
        HttpOutcome.networkError (chars "boom")
      else HttpOutcome.ok (Json.num 1)) []
    ⟨chars "seq_a", chars "/a", [], [], false, none, none⟩
    ⟨chars "seq_b", chars "/b", [], [], false, none, none⟩
    ⟨chars "seq_c", chars "/c", [], [], false, none, none⟩
    rfl rfl rfl
  exact ⟨h.2.2.2.1, h.2.2.2.2⟩

/- ===== Lemmas for the parameter-build claim ===== -/

theorem applyPathParam_skip (pathValues mappings : List (List Char × List Char))
    (store : Store) (url param : List Char)
    (hm : lookupAssoc mappings param = none)
    (hv : lookupAssoc pathValues param = none ∨ lookupAssoc pathValues param = some []) :
    applyPathParam pathValues mappings store url param = url := by
  unfold applyPathParam
  rw [hm]
  rcases hv with hv | hv <;> rw [hv] <;> rfl

theorem buildFold_skip (pathValues mappings : List (List Char × List Char))
    (store : Store) :
    ∀ (ps : List (List Char)) (url : List Char),
    (∀ p ∈ ps, lookupAssoc mappings p = none ∧
      (lookupAssoc pathValues p = none ∨ lookupAssoc pathValues p = some [])) →
    ps.foldl (applyPathParam pathValues mappings store) url = url := by
  intro ps
  induction ps with
  | nil => intro url _; rfl
  | cons p ps ih =>
    intro url h
    obtain ⟨hm, hv⟩ := h p (List.mem_cons_self p ps)
    simp only [List.foldl_cons, applyPathParam_skip pathValues mappings store url p hm hv]
    exact ih url (fun q hq => h q (List.mem_cons_of_mem _ hq))

/-- Claim C5 (amended): when every declared path parameter has an empty (or
missing) literal value, no variable-mapping entry and no inline placeholder,
the build does NOT fail — there is no `MissingRequiredParameter` outcome in
the code — and the produced URL is exactly the base URL plus the endpoint
path, with every brace-wrapped parameter placeholder left unsubstituted. -/
theorem claim5_amended (endpointPath : List Char)
    (pathValues mappings : List (List Char × List Char)) (store : Store)
    (h : ∀ p ∈ extractPathParameters endpointPath,
      lookupAssoc mappings p = none ∧
      (lookupAssoc pathValues p = none ∨ lookupAssoc pathValues p = some [])) :
    buildSequencePathUrl endpointPath pathValues mappings store =
      baseUrl ++ endpointPath := by
  unfold buildSequencePathUrl
  exact buildFold_skip pathValues mappings store _ _ h

/-- Counterexample to C5 as stated: a step whose endpoint declares the
required path parameter, with the empty string as its captured value, no
variable mapping and no inline placeholder, still produces a request URL —
the build cannot fail, and the URL retains the unsubstituted parameter
placeholder instead of any `MissingRequiredParameter` error being raised. -/
theorem claim5_counterexample :
    buildSequencePathUrl (chars "/tasks/\x7btask_gid\x7d")
        [(chars "task_gid", [])] [] [] =
      baseUrl ++ chars "/tasks/\x7btask_gid\x7d" ∧
    containsSub
        (buildSequencePathUrl (chars "/tasks/\x7btask_gid\x7d")
          [(chars "task_gid", [])] [] [])
        (chars "\x7btask_gid\x7d") = true := by
  constructor
  · rfl
  · decide

/-- Witness for the amended C5 at a concrete endpoint and parameter set. -/
theorem claim5_witness :
    buildSequencePathUrl (chars "/tasks/\x7btask_gid\x7d")
        [(chars "task_gid", [])] [] [] =
      baseUrl ++ chars "/tasks/\x7btask_gid\x7d" :=
  claim5_amended (chars "/tasks/\x7btask_gid\x7d") [(chars "task_gid", [])] [] []
    (by decide)

/- ===== Lemmas for the iteration claim ===== -/

/-- Claim C6: when the iteration source resolves to a 5-element sequence and
every per-element call succeeds, the engine run produces an
`IterationSummary` with 5 total iterations, 5 succeeded, 0 failed, and
unified items whose length is the sum of each per-element call's item count. -/
theorem claim6_iteration_summary (elems : List Json) (call : Json → IterCallResult)
    (hlen : elems.length = 5)
    (hok : ∀ e ∈ elems, (call e).isSuccess = true) :
    ∃ s : IterationSummary,
      runIteration (Json.arr elems) call = Except.ok s ∧
      s.totalIterations = 5 ∧ s.succeeded = 5 ∧ s.failed = 0 ∧
      s.unifiedItems.length =
        (elems.map (fun e => (resultItems (call e)).length)).sum := by
  refine ⟨_, rfl, hlen, ?_, ?_, ?_⟩
  · show ((elems.map call).filter (fun r => r.isSuccess)).length = 5
    rw [List.filter_eq_self.mpr]
    · rw [List.length_map]
      exact hlen
    · intro r hr
      obtain ⟨e, he, rfl⟩ := List.mem_map.mp hr
      exact hok e he
  · show ((elems.map call).filter (fun r => !r.isSuccess)).length = 0
    have hnil : (elems.map call).filter (fun r => !r.isSuccess) = [] := by
      rw [List.filter_eq_nil_iff]
      intro r hr
      obtain ⟨e, he, rfl⟩ := List.mem_map.mp hr
      rw [hok e he]
      simp
    rw [hnil]
    rfl
  · show ((elems.map call).flatMap resultItems).length = _
    rw [List.length_flatMap, List.map_map]
    rfl

/-- Witness for C6: five concrete elements, each call succeeding with a
two-element data array, giving 10 unified items. -/
theorem claim6_witness :
    ∃ s : IterationSummary,
      runIteration (Json.arr [Json.num 1, Json.num 2, Json.num 3, Json.num 4, Json.num 5])
          (fun e => IterCallResult.success (Json.arr [e, e])) = Except.ok s ∧
      s.totalIterations = 5 ∧ s.succeeded = 5 ∧ s.failed = 0 ∧
      s.unifiedItems.length =
        (([Json.num 1, Json.num 2, Json.num 3, Json.num 4, Json.num 5] : List Json).map
          (fun e => (resultItems
            ((fun e => IterCallResult.success (Json.arr [e, e])) e)).length)).sum :=
  claim6_iteration_summary [Json.num 1, Json.num 2, Json.num 3, Json.num 4, Json.num 5]
    (fun e => IterCallResult.success (Json.arr [e, e])) rfl
    (fun _ _ => rfl)

/- ===== Lemmas for the import claim ===== -/

theorem loadEntries_append (eps : List EndpointInfo) (xs ys : List Json) :
    (loadEntries eps (xs ++ ys)).steps =
      (loadEntries eps xs).steps ++ (loadEntries eps ys).steps ∧
    (loadEntries eps (xs ++ ys)).loadedCount =
      (loadEntries eps xs).loadedCount + (loadEntries eps ys).loadedCount ∧
    (loadEntries eps (xs ++ ys)).skippedCount =
      (loadEntries eps xs).skippedCount + (loadEntries eps ys).skippedCount := by
  induction xs with
  | nil => simp [loadEntries]
  | cons e es ih =>
    obtain ⟨ih1, ih2, ih3⟩ := ih
    simp only [List.cons_append, loadEntries, List.append_eq]
    cases hpe : processImportEntry eps e <;> dsimp only <;>
      exact ⟨by simp [ih1], by omega, by omega⟩

theorem loadEntries_counts (eps : List EndpointInfo) :
    ∀ es : List Json,
    (loadEntries eps es).loadedCount + (loadEntries eps es).skippedCount = es.length ∧
    (loadEntries eps es).steps.length = (loadEntries eps es).loadedCount := by
  intro es
  induction es with
  | nil => exact ⟨rfl, rfl⟩
  | cons e es ih =>
    obtain ⟨ih1, ih2⟩ := ih
    simp only [loadEntries]
    cases hpe : processImportEntry eps e <;> dsimp only <;>
      exact ⟨by simp only [List.length_cons]; omega, by simp [List.length_cons, ih2]⟩

/-- Claim C8: import tolerance.  An entry whose method/path match no catalog
endpoint is still loaded, flagged as an imported placeholder, rather than
rejecting the file; a malformed (`null`) entry is skipped — adding exactly
one to the skipped count and leaving the loading of all entries before and
after it unchanged; and the loaded/skipped counts always account for every
entry, with the loaded count equal to the number of steps created. -/
theorem claim8_import_tolerance (eps : List EndpointInfo) (pre post : List Json)
    (fs : List (List Char × Json))
    (hnm : findMatchingEndpoint eps (jsGetField (Json.obj fs) (chars "method"))
      (jsGetField (Json.obj fs) (chars "path")) = none) :
    processImportEntry eps (Json.obj fs) =
      some (ImportedStep.mk freshId (jsGetField (Json.obj fs) (chars "method"))
        (jsGetField (Json.obj fs) (chars "path")) true) ∧
    (loadEntries eps (pre ++ Json.obj fs :: post)).steps =
      (loadEntries eps pre).steps ++
        ImportedStep.mk freshId (jsGetField (Json.obj fs) (chars "method"))
          (jsGetField (Json.obj fs) (chars "path")) true ::
        (loadEntries eps post).steps ∧
    (loadEntries eps (pre ++ Json.null :: post)).steps =
      (loadEntries eps pre).steps ++ (loadEntries eps post).steps ∧
    (loadEntries eps (pre ++ Json.null :: post)).loadedCount =
      (loadEntries eps pre).loadedCount + (loadEntries eps post).loadedCount ∧
    (loadEntries eps (pre ++ Json.null :: post)).skippedCount =
      (loadEntries eps pre).skippedCount + (loadEntries eps post).skippedCount + 1 ∧
    ∀ es : List Json,
      (loadEntries eps es).loadedCount + (loadEntries eps es).skippedCount = es.length ∧
      (loadEntries eps es).steps.length = (loadEntries eps es).loadedCount := by
  have hproc : processImportEntry eps (Json.obj fs) =
      some (ImportedStep.mk freshId (jsGetField (Json.obj fs) (chars "method"))
        (jsGetField (Json.obj fs) (chars "path")) true) := by
    simp only [processImportEntry, hnm]
  have hbad : loadEntries eps (Json.null :: post) =
      ImportOutcome.mk (loadEntries eps post).steps (loadEntries eps post).loadedCount
        ((loadEntries eps post).skippedCount + 1) := by
    simp only [loadEntries, processImportEntry]
  have hgood : loadEntries eps (Json.obj fs :: post) =
      ImportOutcome.mk
        (ImportedStep.mk freshId (jsGetField (Json.obj fs) (chars "method"))
          (jsGetField (Json.obj fs) (chars "path")) true :: (loadEntries eps post).steps)
        ((loadEntries eps post).loadedCount + 1)
        (loadEntries eps post).skippedCount := by
    simp only [loadEntries, hproc]
  obtain ⟨ha1, ha2, ha3⟩ := loadEntries_append eps pre (Json.obj fs :: post)
  obtain ⟨hb1, hb2, hb3⟩ := loadEntries_append eps pre (Json.null :: post)
  refine ⟨hproc, ?_, ?_, ?_, ?_, loadEntries_counts eps⟩
  · rw [ha1, hgood]
  · rw [hb1, hbad]
  · rw [hb2, hbad]
  · rw [hb3, hbad]
    dsimp only
    omega

/-- Witness for C8: a catalog with one GET endpoint; the imported file has a
valid matching entry, then an unmatched entry, then a malformed (`null`)
entry, then a stray number entry — the unmatched entry loads as a flagged
placeholder and the `null` entry is the only one skipped. -/
theorem claim8_witness :
    processImportEntry [EndpointInfo.mk (chars "GET") (chars "/tasks")]
        (Json.obj [(chars "method", Json.str (chars "POST")),
          (chars "path", Json.str (chars "/nope"))]) =
      some (ImportedStep.mk freshId (some (Json.str (chars "POST")))
        (some (Json.str (chars "/nope"))) true) ∧
    (loadEntries [EndpointInfo.mk (chars "GET") (chars "/tasks")]
        ([Json.obj [(chars "method", Json.str (chars "GET")),
            (chars "path", Json.str (chars "/tasks"))]] ++
          Json.null ::
          [Json.obj [(chars "method", Json.str (chars "POST")),
            (chars "path", Json.str (chars "/nope"))]])).skippedCount =
      (loadEntries [EndpointInfo.mk (chars "GET") (chars "/tasks")]
        [Json.obj [(chars "method", Json.str (chars "GET")),
          (chars "path", Json.str (chars "/tasks"))]]).skippedCount +
      (loadEntries [EndpointInfo.mk (chars "GET") (chars "/tasks")]
        [Json.obj [(chars "method", Json.str (chars "POST")),
          (chars "path", Json.str (chars "/nope"))]]).skippedCount + 1 := by
  have h := claim8_import_tolerance [EndpointInfo.mk (chars "GET") (chars "/tasks")]
    [Json.obj [(chars "method", Json.str (chars "GET")),
      (chars "path", Json.str (chars "/tasks"))]]
    [Json.obj [(chars "method", Json.str (chars "POST")),
      (chars "path", Json.str (chars "/nope"))]]
    [(chars "method", Json.str (chars "POST")), (chars "path", Json.str (chars "/nope"))]
    rfl
  exact ⟨h.1, h.2.2.2.2.1⟩

/- ===== Lemmas for the flattening claim ===== -/

/-- Counterexample to C9 as stated: flattening one nested object produces the
key joined with an underscore, not a dotted key. -/
theorem claim9_counterexample :
    flattenObject (Json.obj [(chars "a", Json.obj [(chars "b", Json.num 1)])]) [] 3 0 =
      [(chars "a_b", Json.num 1)] ∧
    chars "a_b" ≠ chars "a.b" := by
  constructor
  · simp [flattenObject, objAssign, objSet, storeSet]
    decide
  · decide

/-- Claim C9 (amended): the flattening step turns nested objects into
underscore-joined keys up to the fixed depth of 3 levels; a structure nested
deeper collapses to the object placeholder marker, and an array value
collapses to a length-annotated array placeholder marker instead of being
recursively flattened. -/
theorem claim9_amended (a b c d : List Char) (v : Json) (xs : List Json) (k : Int) :
    flattenObject (Json.obj [(a, Json.obj [(b, Json.obj [(c, Json.obj [(d, v)])])])]) [] 3 0 =
      [(a ++ '_' :: b ++ '_' :: c, Json.str (chars "[Object]"))] ∧
    flattenObject (Json.obj [(a, Json.arr xs)]) [] 3 0 =
      [(a, Json.str (chars "[Array(" ++ natDigits xs.length ++ chars ")]"))] ∧
    flattenObject (Json.obj [(a, Json.obj [(b, Json.num k)])]) [] 3 0 =
      [(a ++ '_' :: b, Json.num k)] := by
  refine ⟨?_, ?_, ?_⟩
  · simp [flattenObject, objAssign, objSet, storeSet]
    rw [show ('_' :: (b ++ '_' :: (c ++ ['_']))) = ('_' :: (b ++ '_' :: c)) ++ ['_'] from by
      simp]
    rw [List.dropLast_concat]
  · simp [flattenObject, objAssign, objSet, storeSet]
  · simp [flattenObject, objAssign, objSet, storeSet]

/- ===== Lemmas for the inline-placeholder claim ===== -/

theorem takeWhile_append_all {p : Char → Bool} (l₁ l₂ : List Char)
    (h : ∀ x ∈ l₁, p x = true) :
    (l₁ ++ l₂).takeWhile p = l₁ ++ l₂.takeWhile p := by
  induction l₁ with
  | nil => simp
  | cons x xs ih =>
    simp only [List.cons_append, List.takeWhile_cons, h x (List.mem_cons_self x xs),
      if_true]
    rw [ih (fun y hy => h y (List.mem_cons_of_mem _ hy))]

theorem dropWhile_append_all {p : Char → Bool} (l₁ l₂ : List Char)
    (h : ∀ x ∈ l₁, p x = true) :
    (l₁ ++ l₂).dropWhile p = l₂.dropWhile p := by
  induction l₁ with
  | nil => simp
  | cons x xs ih =>
    simp only [List.cons_append, List.dropWhile_cons, h x (List.mem_cons_self x xs),
      if_true]
    exact ih (fun y hy => h y (List.mem_cons_of_mem _ hy))

theorem findPlaceholder_first (pre cap post : List Char) (h1 : '\x7b' ∉ pre)
    (h3 : cap ≠ []) (h4 : '\x7d' ∉ cap) :
    findPlaceholder (pre ++ '\x7b' :: '\x7b' :: (cap ++ '\x7d' :: '\x7d' :: post)) =
      some cap := by
  have hcap : ∀ x ∈ cap, (fun y => y ≠ '\x7d' : Char → Bool) x = true := by
    intro x hx
    simp only [ne_eq, decide_eq_true_eq]
    exact fun he => h4 (he ▸ hx)
  induction pre with
  | nil =>
    rw [List.nil_append, findPlaceholder]
    rw [if_pos ⟨rfl, rfl⟩]
    dsimp only [List.tail_cons]
    rw [takeWhile_append_all cap _ hcap, dropWhile_append_all cap _ hcap]
    rw [show ('\x7d' :: '\x7d' :: post).takeWhile (fun y => y ≠ '\x7d') = [] from rfl]
    rw [show ('\x7d' :: '\x7d' :: post).dropWhile (fun y => y ≠ '\x7d') =
      '\x7d' :: '\x7d' :: post from rfl]
    rw [List.append_nil]
    rw [if_pos ⟨h3, rfl⟩]
  | cons x xs ih =>
    rw [List.cons_append, findPlaceholder]
    rw [if_neg (by
      intro hc
      exact h1 (hc.1 ▸ List.mem_cons_self x xs))]
    exact ih (fun hm => h1 (List.mem_cons_of_mem _ hm))

/-- Claim C10: for a value containing an inline placeholder, the resolution
returns ONLY the resolved value of the first placeholder: any literal text
before or after it, and any further placeholders in the same value, are
discarded — the result depends only on the first captured expression. -/
theorem claim10_first_placeholder (pre cap post : List Char) (store : Store)
    (h1 : '\x7b' ∉ pre) (h3 : cap ≠ []) (h4 : '\x7d' ∉ cap) :
    resolveVariablePlaceholder
        (pre ++ chars "\x7b\x7b" ++ cap ++ chars "\x7d\x7d" ++ post) store =
      resolveVariable cap store := by
  unfold resolveVariablePlaceholder
  rw [show pre ++ chars "\x7b\x7b" ++ cap ++ chars "\x7d\x7d" ++ post =
      pre ++ '\x7b' :: '\x7b' :: (cap ++ '\x7d' :: '\x7d' :: post) from by simp [chars]]
  rw [findPlaceholder_first pre cap post h1 h3 h4]

/-- Witness for C10: literal text before, and a second placeholder after, the
first placeholder are both discarded; only the first expression's resolved
value is returned. -/
theorem claim10_witness :
    resolveVariablePlaceholder
        (chars "limit=" ++ chars "\x7b\x7b" ++ chars "seq_1.data" ++ chars "\x7d\x7d" ++
          chars "&y=\x7b\x7bseq_1.gid\x7d\x7d")
        [(chars "seq_1", Json.obj [(chars "data", Json.num 5), (chars "gid", Json.num 9)])] =
      resolveVariable (chars "seq_1.data")
        [(chars "seq_1", Json.obj [(chars "data", Json.num 5), (chars "gid", Json.num 9)])] ∧
    resolveVariable (chars "seq_1.data")
        [(chars "seq_1", Json.obj [(chars "data", Json.num 5), (chars "gid", Json.num 9)])] =
      Json.num 5 := by
  constructor
  · exact claim10_first_placeholder (chars "limit=") (chars "seq_1.data")
      (chars "&y=\x7b\x7bseq_1.gid\x7d\x7d")
      [(chars "seq_1", Json.obj [(chars "data", Json.num 5), (chars "gid", Json.num 9)])]
      (by decide) (by decide) (by decide)
  · rfl
